import Mathlib

set_option maxRecDepth 100000

/-!
Verification of the SM4 block cipher and SM4-GCM AEAD implementation
(project1/code and the GCM translation unit of this repository).

Bytes are modelled as natural numbers below 256, 32-bit words as natural
numbers below 2^32 (with explicit `% 2^32` where C would truncate), and
byte buffers as lists of naturals.  The mutable global table state of the
GCM unit (`H_TABLE` / `h_tables_initialized`) is modelled by explicit
state passing.
-/

namespace SM4GCM

/-- The fixed SM4 S-box, transcribed from the source (`SM4_SBOX_ALIGNED`
in sm4_aesni.cpp; the basic backend indexes the same table as `SM4_SBOX`). -/
def SM4_SBOX : List ℕ :=
[0xd6,0x90,0xe9,0xfe,0xcc,0xe1,0x3d,0xb7,0x16,0xb6,0x14,0xc2,0x28,0xfb,0x2c,0x05,
 0x2b,0x67,0x9a,0x76,0x2a,0xbe,0x04,0xc3,0xaa,0x44,0x13,0x26,0x49,0x86,0x06,0x99,
 0x9c,0x42,0x50,0xf4,0x91,0xef,0x98,0x7a,0x33,0x54,0x0b,0x43,0xed,0xcf,0xac,0x62,
 0xe4,0xb3,0x1c,0xa9,0xc9,0x08,0xe8,0x95,0x80,0xdf,0x94,0xfa,0x75,0x8f,0x3f,0xa6,
 0x47,0x07,0xa7,0xfc,0xf3,0x73,0x17,0xba,0x83,0x59,0x3c,0x19,0xe6,0x85,0x4f,0xa8,
 0x68,0x6b,0x81,0xb2,0x71,0x64,0xda,0x8b,0xf8,0xeb,0x0f,0x4b,0x70,0x56,0x9d,0x35,
 0x1e,0x24,0x0e,0x5e,0x63,0x58,0xd1,0xa2,0x25,0x22,0x7c,0x3b,0x01,0x21,0x78,0x87,
 0xd4,0x00,0x46,0x57,0x9f,0xd3,0x27,0x52,0x4c,0x36,0x02,0xe7,0xa0,0xc4,0xc8,0x9e,
 0xea,0xbf,0x8a,0xd2,0x40,0xc7,0x38,0xb5,0xa3,0xf7,0xf2,0xce,0xf9,0x61,0x15,0xa1,
 0xe0,0xae,0x5d,0xa4,0x9b,0x34,0x1a,0x55,0xad,0x93,0x32,0x30,0xf5,0x8c,0xb1,0xe3,
 0x1d,0xf6,0xe2,0x2e,0x82,0x66,0xca,0x60,0xc0,0x29,0x23,0xab,0x0d,0x53,0x4e,0x6f,
 0xd5,0xdb,0x37,0x45,0xde,0xfd,0x8e,0x2f,0x03,0xff,0x6a,0x72,0x6d,0x6c,0x5b,0x51,
 0x8d,0x1b,0xaf,0x92,0xbb,0xdd,0xbc,0x7f,0x11,0xd9,0x5c,0x41,0x1f,0x10,0x5a,0xd8,
 0x0a,0xc1,0x31,0x88,0xa5,0xcd,0x7b,0xbd,0x2d,0x74,0xd0,0x12,0xb8,0xe5,0xb4,0xb0,
 0x89,0x69,0x97,0x4a,0x0c,0x96,0x77,0x7e,0x65,0xb9,0xf1,0x09,0xc5,0x6e,0xc6,0x84,
 0x18,0xf0,0x7d,0xec,0x3a,0xdc,0x4d,0x20,0x79,0xee,0x5f,0x3e,0xd7,0xcb,0x39,0x48]

/-- S-box lookup, `SM4_SBOX[b]`. -/
def sbox (b : ℕ) : ℕ := SM4_SBOX.getD b 0

/-- Modelled from the spec: the header `sm4_shared.h` defining the system
constants `FK` is not among the source files.  The spec says the four key
words are "XORed with four fixed system constants"; the values are the
standard SM4 constants, pinned by the spec known-answer vector
(key 0123456789abcdeffedcba9876543210, plaintext = key, ciphertext
681edf34d206965e86b3e94f536e4246). -/
def FK : List ℕ := [0xa3b1bac6, 0x56aa3350, 0x677d9197, 0xb27022dc]

/-- Modelled from the spec: the header `sm4_shared.h` defining the round
constants `CK` is not among the source files.  The spec says each round
XORs "a fixed round constant"; the values are the standard SM4 constants,
pinned by the spec known-answer vector. -/
def CK : List ℕ :=
[0x00070e15,0x1c232a31,0x383f464d,0x545b6269,0x70777e85,0x8c939aa1,0xa8afb6bd,0xc4cbd2d9,
 0xe0e7eef5,0xfc030a11,0x181f262d,0x343b4249,0x50575e65,0x6c737a81,0x888f969d,0xa4abb2b9,
 0xc0c7ced5,0xdce3eaf1,0xf8ff060d,0x141b2229,0x30373e45,0x4c535a61,0x686f767d,0x848b9299,
 0xa0a7aeb5,0xbcc3cad1,0xd8dfe6ed,0xf4fb0209,0x10171e25,0x2c333a41,0x484f565d,0x646b7279]

/-- Modelled from the spec: `to_uint32` of the missing `sm4_shared.h`.
The spec fixes big-endian 32-bit word order, so four bytes load as the
big-endian value. -/
def to_uint32 (b : List ℕ) : ℕ :=
  b.getD 0 0 * 2 ^ 24 + b.getD 1 0 * 2 ^ 16 + b.getD 2 0 * 2 ^ 8 + b.getD 3 0

/-- Modelled from the spec: `from_uint32` of the missing `sm4_shared.h`,
big-endian byte store of a 32-bit word. -/
def from_uint32 (x : ℕ) : List ℕ :=
  [x / 2 ^ 24 % 2 ^ 8, x / 2 ^ 16 % 2 ^ 8, x / 2 ^ 8 % 2 ^ 8, x % 2 ^ 8]

/-- The ROTL macro on 32-bit words: `(x << n) | (x >> (32 - n))` with the
left shift truncated to 32 bits as in C. -/
def rotl32 (x n : ℕ) : ℕ := ((x <<< n) % 2 ^ 32) ||| (x >>> (32 - n))

/-- Nonlinear byte substitution of the key schedule (`tau_key`). -/
def tau_key (A : ℕ) : ℕ := to_uint32 ((from_uint32 A).map sbox)

/-- Linear transform of the key schedule: `B ^ ROTL(B,13) ^ ROTL(B,23)`. -/
def L_prime (B : ℕ) : ℕ := B ^^^ rotl32 B 13 ^^^ rotl32 B 23

/-- Linear transform of the round function:
`B ^ ROTL(B,2) ^ ROTL(B,10) ^ ROTL(B,18) ^ ROTL(B,24)`. -/
def L (B : ℕ) : ℕ := B ^^^ rotl32 B 2 ^^^ rotl32 B 10 ^^^ rotl32 B 18 ^^^ rotl32 B 24

/-- Nonlinear byte substitution of the round function (`tau`);
identical code to `tau_key`. -/
def tau (A : ℕ) : ℕ := to_uint32 ((from_uint32 A).map sbox)

/-- Composite transform `T(V) = L(tau(V))`. -/
def T (V : ℕ) : ℕ := L (tau V)

/-- The four-word working state of SM4 (the array `X[4]` resp. `K[4]`). -/
structure SM4State where
  x0 : ℕ
  x1 : ℕ
  x2 : ℕ
  x3 : ℕ
deriving Repr, DecidableEq

/-- One iteration of the `sm4_set_key` loop: compute `rk[i]` and slide the
four-word window. -/
def sm4_key_step (ck : ℕ) (s : SM4State × List ℕ) : SM4State × List ℕ :=
  let r := s.1.x0 ^^^ L_prime (tau_key (s.1.x1 ^^^ s.1.x2 ^^^ s.1.x3 ^^^ ck))
  (⟨s.1.x1, s.1.x2, s.1.x3, r⟩, s.2 ++ [r])

/-- SM4 key schedule `sm4_set_key`: load the key big-endian, XOR with `FK`,
then 32 rounds producing `rk[0..31]`. -/
def sm4_set_key (key : List ℕ) : List ℕ :=
  ((List.range 32).foldl (fun s i => sm4_key_step (CK.getD i 0) s)
    (⟨to_uint32 key ^^^ FK.getD 0 0, to_uint32 (key.drop 4) ^^^ FK.getD 1 0,
      to_uint32 (key.drop 8) ^^^ FK.getD 2 0, to_uint32 (key.drop 12) ^^^ FK.getD 3 0⟩,
     ([] : List ℕ))).2

/-- One encryption/decryption round of the basic backend. -/
def sm4_round (s : SM4State) (k : ℕ) : SM4State :=
  ⟨s.x1, s.x2, s.x3, s.x0 ^^^ T (s.x1 ^^^ s.x2 ^^^ s.x3 ^^^ k)⟩

/-- Load a 16-byte block into the four state words (big-endian). -/
def load_block (b : List ℕ) : SM4State :=
  ⟨to_uint32 b, to_uint32 (b.drop 4), to_uint32 (b.drop 8), to_uint32 (b.drop 12)⟩

/-- Store the state as a 16-byte block, words in reverse order
(the final reversal of the cipher). -/
def store_block (s : SM4State) : List ℕ :=
  from_uint32 s.x3 ++ from_uint32 s.x2 ++ from_uint32 s.x1 ++ from_uint32 s.x0

/-- The sequence of round keys consumed by encryption: `rk[0], ..., rk[31]`. -/
def enc_keys (rk : List ℕ) : List ℕ := (List.range 32).map (fun i => rk.getD i 0)

/-- The sequence of round keys consumed by decryption: `rk[31], ..., rk[0]`. -/
def dec_keys (rk : List ℕ) : List ℕ := (List.range 32).map (fun i => rk.getD (31 - i) 0)

/-- Basic backend `sm4_encrypt_basic`. -/
def sm4_encrypt_basic (input : List ℕ) (rk : List ℕ) : List ℕ :=
  store_block ((enc_keys rk).foldl sm4_round (load_block input))

/-- Basic backend `sm4_decrypt_basic` (round keys in reverse order). -/
def sm4_decrypt_basic (input : List ℕ) (rk : List ℕ) : List ℕ :=
  store_block ((dec_keys rk).foldl sm4_round (load_block input))

/-- The precomputed tables of `generate_ttables`:
`T_TABLE[j][i] = L(SM4_SBOX[i] << (24 - 8*j))`.  The generation has no key
or input dependence, so the lazily built global table is modelled by its
(unique) contents. -/
def T_TABLE (j b : ℕ) : ℕ :=
  if j = 0 then L (sbox b <<< 24)
  else if j = 1 then L (sbox b <<< 16)
  else if j = 2 then L (sbox b <<< 8)
  else L (sbox b)

/-- Table-driven composite transform `T_ttable`: four lookups XORed. -/
def T_ttable (v : ℕ) : ℕ :=
  T_TABLE 0 (v >>> 24 % 256) ^^^ T_TABLE 1 (v >>> 16 % 256) ^^^
  T_TABLE 2 (v >>> 8 % 256) ^^^ T_TABLE 3 (v % 256)

/-- One round of the T-table backend. -/
def sm4_round_ttable (s : SM4State) (k : ℕ) : SM4State :=
  ⟨s.x1, s.x2, s.x3, s.x0 ^^^ T_ttable (s.x1 ^^^ s.x2 ^^^ s.x3 ^^^ k)⟩

/-- T-table backend `sm4_encrypt_ttable`. -/
def sm4_encrypt_ttable (input : List ℕ) (rk : List ℕ) : List ℕ :=
  store_block ((enc_keys rk).foldl sm4_round_ttable (load_block input))

/-- T-table backend `sm4_decrypt_ttable`. -/
def sm4_decrypt_ttable (input : List ℕ) (rk : List ℕ) : List ℕ :=
  store_block ((dec_keys rk).foldl sm4_round_ttable (load_block input))


/-- Reversal of the four state words (the output order `X[3],X[2],X[1],X[0]`,
viewed as a state). -/
def rev4 (s : SM4State) : SM4State := ⟨s.x3, s.x2, s.x1, s.x0⟩

/-- All four state words fit in 32 bits. -/
def st_bounded (s : SM4State) : Prop :=
  s.x0 < 2 ^ 32 ∧ s.x1 < 2 ^ 32 ∧ s.x2 < 2 ^ 32 ∧ s.x3 < 2 ^ 32

/-- The key-schedule recurrence exactly as the spec and claim state it:
the four big-endian key words XORed with FK seed a sliding four-word
window, and round i produces rk[i] = K0 XOR Lprime(tau(K1 XOR K2 XOR K3
XOR CK[i])), the window then sliding forward with rk[i] newest.  Second
definition, following the words of the spec, for comparison with
`sm4_set_key`. -/
def key_window (key : List ℕ) : ℕ → ℕ
  | 0 => to_uint32 key ^^^ FK.getD 0 0
  | 1 => to_uint32 (key.drop 4) ^^^ FK.getD 1 0
  | 2 => to_uint32 (key.drop 8) ^^^ FK.getD 2 0
  | 3 => to_uint32 (key.drop 12) ^^^ FK.getD 3 0
  | n + 4 => key_window key n ^^^ L_prime (tau_key
      (key_window key (n + 1) ^^^ key_window key (n + 2) ^^^ key_window key (n + 3) ^^^
        CK.getD n 0))

/-! GCM definitions (the GCM translation unit).  The C file keeps a global
`uint64_t H_TABLE[16][256]` and a flag `h_tables_initialized`; both are
modelled by an explicit `GfSt` value threaded through the functions.
Because `gf_multiply` indexes `H_TABLE[i + 8]` for i up to 15, rows 16..23
(reads past the end of the declared array) are part of the modelled table
function; `init_gf_tables` writes only rows 0..15 and leaves the rest of
the state unchanged, exactly as the C stores do. -/

/-- The global GF(2^128) table state: the flag `h_tables_initialized` and
the contents of `H_TABLE` (row, byte index to 64-bit word), extended to
the out-of-bounds rows the multiply reads. -/
structure GfSt where
  initialized : Bool
  tbl : ℕ → ℕ → ℕ

/-- A fresh process state: flag clear, all modelled memory zero. -/
def freshSt : GfSt := ⟨false, fun _ _ => 0⟩

/-- The `block_to_words` loop for one 64-bit half: big-endian fold of up
to eight bytes. -/
def beWord8 (l : List ℕ) : ℕ := l.foldl (fun a b => (a <<< 8) ||| b) 0

/-- `block_to_words`: split a 16-byte block into (high, low) 64-bit words. -/
def block_to_words (b : List ℕ) : ℕ × ℕ :=
  (beWord8 (b.take 8), beWord8 ((b.drop 8).take 8))

/-- `words_to_block`: store two 64-bit words back as 16 big-endian bytes. -/
def words_to_block (hi lo : ℕ) : List ℕ :=
  ((List.range 8).map (fun i => hi >>> (8 * (7 - i)) % 256)) ++
  ((List.range 8).map (fun i => lo >>> (8 * (7 - i)) % 256))

/-- The byte-wise left shift of V in `gf_multiply_basic`: each byte takes
the carry bit of the next byte, the bytes truncated to 8 bits as the C
`uint8_t` assignment does (the overall carry out of byte 0 is handled by
the caller). -/
def gfDouble (V : List ℕ) : List ℕ :=
  (List.range 16).map (fun k =>
    ((V.getD k 0 <<< 1) ||| (if V.getD (k + 1) 0 &&& 128 = 0 then 0 else 1)) % 256)

/-- One iteration of the bit loop of `gf_multiply_basic` (bit t of 128,
scanning X from byte 0, high bit first): conditionally XOR V into Z, then
shift V left one bit, reducing with 0xE1 at byte 15 on carry out. -/
def gf_step (X : List ℕ) (ZV : List ℕ × List ℕ) (t : ℕ) : List ℕ × List ℕ :=
  let Z := if X.getD (t / 8) 0 &&& (1 <<< (7 - t % 8)) = 0 then ZV.1
           else List.zipWith (fun a b => a ^^^ b) ZV.1 ZV.2
  let carry := ZV.2.getD 0 0 &&& 128
  let V := gfDouble ZV.2
  (Z, if carry = 0 then V else V.set 15 (V.getD 15 0 ^^^ 0xE1))

/-- Shift-and-XOR reference multiply `gf_multiply_basic` over GF(2^128). -/
def gf_multiply_basic (X Y : List ℕ) : List ℕ :=
  ((List.range 128).foldl (gf_step X) (List.replicate 16 0, Y)).1

/-- The table pair (row i, row i + 8) of `init_gf_tables` at byte value j:
row 0 and 8 from `gf_multiply_basic` on the block with byte 0 = j; each
later pair from the previous one by the byte-wise shift the C loop does
(`H_TABLE[i][j] = H_TABLE[i-1][j] >> 8 | H_TABLE[i+7][j] << 56`,
`H_TABLE[i+8][j] = H_TABLE[i+7][j] >> 8`, the 64-bit shift truncating). -/
def htable_pair (H : List ℕ) : ℕ → ℕ → ℕ × ℕ
  | 0, j => block_to_words (gf_multiply_basic (j :: List.replicate 15 0) H)
  | i + 1, j =>
      ((htable_pair H i j).1 >>> 8 ||| ((htable_pair H i j).2 <<< 56) % 2 ^ 64,
       (htable_pair H i j).2 >>> 8)

/-- `init_gf_tables`: build rows 0..15 of H_TABLE from H and set the flag;
all other modelled memory is left as it was. -/
def init_gf_tables (H : List ℕ) (st : GfSt) : GfSt :=
  ⟨true, fun i j =>
    if i < 8 then (htable_pair H i j).1
    else if i < 16 then (htable_pair H (i - 8) j).2
    else st.tbl i j⟩

/-- `gf_multiply`: with the flag clear, fall back to the basic multiply;
with it set, XOR rows `tbl i X[i]` (high) and `tbl (i+8) X[i]` (low) over
the 16 bytes of X, never reading Y. -/
def gf_multiply (st : GfSt) (X Y : List ℕ) : List ℕ :=
  if st.initialized then
    words_to_block
      ((List.range 16).foldl (fun a i => a ^^^ st.tbl i (X.getD i 0)) 0)
      ((List.range 16).foldl (fun a i => a ^^^ st.tbl (i + 8) (X.getD i 0)) 0)
  else gf_multiply_basic X Y

/-- Zero-pad a partial block to 16 bytes. -/
def pad16 (d : List ℕ) : List ℕ := d ++ List.replicate (16 - d.length) 0

/-- The big-endian 64-bit byte encoding used for the GHASH length block. -/
def bytes64 (x : ℕ) : List ℕ := (List.range 8).map (fun i => x >>> (56 - 8 * i) % 256)

/-- The block-absorbing loop of `ghash`: full 16-byte chunks are XORed
into the accumulator and multiplied by H; a trailing partial chunk is
zero-padded first. -/
def ghash_fold (st : GfSt) (H X data : List ℕ) : List ℕ :=
  if data.length = 0 then X
  else if h16 : 16 ≤ data.length then
    ghash_fold st H (gf_multiply st (List.zipWith (fun a b => a ^^^ b) X (data.take 16)) H)
      (data.drop 16)
  else gf_multiply st (List.zipWith (fun a b => a ^^^ b) X (pad16 data)) H
termination_by data.length
decreasing_by simp; omega

/-- `ghash`: absorb the AAD, then the ciphertext, then the 128-bit length
block (AAD bit-length, data bit-length, both big-endian). -/
def ghash (st : GfSt) (H A C : List ℕ) : List ℕ :=
  gf_multiply st
    (List.zipWith (fun a b => a ^^^ b) (ghash_fold st H (ghash_fold st H (List.replicate 16 0) A) C)
      (bytes64 (A.length * 8) ++ bytes64 (C.length * 8))) H

/-- `increment_counter`: the last four counter bytes as a big-endian
32-bit value, incremented mod 2^32, stored back. -/
def increment_counter (c : List ℕ) : List ℕ :=
  c.take 12 ++ from_uint32 ((to_uint32 (c.drop 12) + 1) % 2 ^ 32)

/-- `generate_J0`: a 12-byte nonce is used directly with a 32-bit counter
of 1 appended; any other length goes through `ghash` on the nonce and
then one further fold of the nonce-bit-length block. -/
def generate_J0 (st : GfSt) (iv H : List ℕ) : List ℕ :=
  if iv.length = 12 then iv ++ [0, 0, 0, 1]
  else gf_multiply st
    (List.zipWith (fun a b => a ^^^ b) (ghash st H [] iv)
      (List.replicate 8 0 ++ bytes64 (iv.length * 8))) H

/-- Modelled from the spec: the initial counter derivation the spec
describes in section 4.3 step 2 and the claim restates, namely the
universal hash of the zero-padded nonce followed by a single trailing
128-bit length block encoding 0 AAD bits and the nonce bit-length; this
is literally `ghash` applied to an empty AAD and the nonce, since `ghash`
itself appends exactly that length block.  Second definition, following
the words of the spec, for comparison with `generate_J0`. -/
def generate_J0_spec (st : GfSt) (iv H : List ℕ) : List ℕ :=
  if iv.length = 12 then iv ++ [0, 0, 0, 1]
  else ghash st H [] iv

/-- `generate_tag`: encrypt J0 with the T-table backend and XOR with the
GHASH output. -/
def generate_tag (J0 S rk : List ℕ) : List ℕ :=
  List.zipWith (fun a b => a ^^^ b) (sm4_encrypt_ttable J0 rk) S

/-- The counter-mode keystream loop shared by GCM encryption and
decryption: encrypt the counter, XOR with the next (possibly partial)
16-byte chunk, increment the counter. -/
def ctr_crypt (rk counter data : List ℕ) : List ℕ :=
  if data.length = 0 then []
  else
    List.zipWith (fun a b => a ^^^ b) (data.take 16) (sm4_encrypt_ttable counter rk) ++
    ctr_crypt rk (increment_counter counter) (data.drop 16)
termination_by data.length
decreasing_by simp; omega

/-- The hash subkey `H = E_K(0^128)` computed by both GCM entry points. -/
def gcm_H (key : List ℕ) : List ℕ :=
  sm4_encrypt_ttable (List.replicate 16 0) (sm4_set_key key)

/-- The table state both GCM entry points run under: the table is built
from this call's H only when the flag is still clear. -/
def gcm_st1 (st : GfSt) (key : List ℕ) : GfSt :=
  if st.initialized then st else init_gf_tables (gcm_H key) st

/-- The initial counter block of a GCM call. -/
def gcm_J0 (st : GfSt) (key iv : List ℕ) : List ℕ :=
  generate_J0 (gcm_st1 st key) iv (gcm_H key)

/-- The authentication tag a GCM call computes over `data` (the
ciphertext) and the AAD. -/
def gcm_tag (st : GfSt) (key iv aad data : List ℕ) : List ℕ :=
  generate_tag (gcm_J0 st key iv) (ghash (gcm_st1 st key) (gcm_H key) aad data)
    (sm4_set_key key)

/-- `sm4_gcm_encrypt` (the success path; the C entry returns false only
on null pointers, which byte lists cannot model): counter-mode ciphertext
from J0+1, then the tag, and the possibly updated global table state. -/
def sm4_gcm_encrypt (st : GfSt) (key iv aad pt : List ℕ) : (List ℕ × List ℕ) × GfSt :=
  let ct := ctr_crypt (sm4_set_key key) (increment_counter (gcm_J0 st key iv)) pt
  ((ct, gcm_tag st key iv aad ct), gcm_st1 st key)

/-- `sm4_gcm_decrypt`: recompute the tag over the supplied ciphertext and
AAD; on a 16-byte match decrypt in counter mode, otherwise report failure
with the plaintext buffer cleared to `ciphertext_len` zero bytes. -/
def sm4_gcm_decrypt (st : GfSt) (key iv aad ct tag : List ℕ) : (Bool × List ℕ) × GfSt :=
  if gcm_tag st key iv aad ct = tag then
    ((true, ctr_crypt (sm4_set_key key) (increment_counter (gcm_J0 st key iv)) ct),
     gcm_st1 st key)
  else ((false, List.replicate ct.length 0), gcm_st1 st key)

/-! Bit-level helper lemmas. -/

lemma xor_left_comm (a b c : ℕ) : a ^^^ (b ^^^ c) = b ^^^ (a ^^^ c) := by
  rw [← Nat.xor_assoc, Nat.xor_comm a b, Nat.xor_assoc]

lemma testBit_ge (x n i : ℕ) (hx : x < 2 ^ n) (h : n ≤ i) : x.testBit i = false :=
  Nat.testBit_eq_false_of_lt (lt_of_lt_of_le hx (Nat.pow_le_pow_right (by norm_num) h))

lemma rotl32_xor (a b n : ℕ) (ha : a < 2 ^ 32) (hb : b < 2 ^ 32) :
    rotl32 (a ^^^ b) n = rotl32 a n ^^^ rotl32 b n := by
  unfold rotl32
  apply Nat.eq_of_testBit_eq
  intro i
  simp only [Nat.testBit_lor, Nat.testBit_xor, Nat.testBit_mod_two_pow, Nat.testBit_shiftLeft,
    Nat.testBit_shiftRight]
  by_cases h32 : i < 32
  · by_cases hn : n ≤ i
    · have hm : 32 ≤ 32 - n + i := by omega
      rw [testBit_ge a 32 _ ha hm, testBit_ge b 32 _ hb hm]
      cases a.testBit (i - n) <;> cases b.testBit (i - n) <;> simp [h32, hn]
    · simp [hn]
  · have hm : 32 ≤ 32 - n + i := by omega
    rw [testBit_ge a 32 _ ha hm, testBit_ge b 32 _ hb hm]
    simp [h32]

lemma rotl32_lt (x n : ℕ) (hx : x < 2 ^ 32) : rotl32 x n < 2 ^ 32 := by
  unfold rotl32
  apply Nat.or_lt_two_pow
  · exact Nat.mod_lt _ (by norm_num)
  · have h : x >>> (32 - n) ≤ x := by
      rw [Nat.shiftRight_eq_div_pow]; exact Nat.div_le_self ..
    exact lt_of_le_of_lt h hx

lemma L_xor (a b : ℕ) (ha : a < 2 ^ 32) (hb : b < 2 ^ 32) : L (a ^^^ b) = L a ^^^ L b := by
  unfold L
  rw [rotl32_xor a b 2 ha hb, rotl32_xor a b 10 ha hb, rotl32_xor a b 18 ha hb,
    rotl32_xor a b 24 ha hb]
  simp only [Nat.xor_assoc]
  simp [Nat.xor_comm, xor_left_comm]

lemma L_lt (B : ℕ) (hB : B < 2 ^ 32) : L B < 2 ^ 32 := by
  unfold L
  exact Nat.xor_lt_two_pow (Nat.xor_lt_two_pow (Nat.xor_lt_two_pow (Nat.xor_lt_two_pow hB
    (rotl32_lt B 2 hB)) (rotl32_lt B 10 hB)) (rotl32_lt B 18 hB)) (rotl32_lt B 24 hB)

lemma mul_pow_two_add_eq_xor (a y n : ℕ) (hy : y < 2 ^ n) :
    2 ^ n * a + y = (a <<< n) ^^^ y := by
  apply Nat.eq_of_testBit_eq
  intro j
  rw [Nat.testBit_mul_pow_two_add a hy j]
  simp only [Nat.testBit_xor, Nat.testBit_shiftLeft]
  by_cases h : j < n
  · simp [h, Nat.not_le.mpr h]
  · rw [testBit_ge y n j hy (Nat.not_lt.mp h)]
    simp [h, Nat.not_lt.mp h]

lemma getD_byte_lt (l : List ℕ) (i : ℕ) (h : ∀ x ∈ l, x < 256) : l.getD i 0 < 256 := by
  rcases hl : l[i]? with _ | x
  · simp [List.getD_eq_getElem?_getD, hl]
  · rw [List.getD_eq_getElem?_getD, hl]
    exact h x (List.getElem?_mem hl)

lemma sbox_lt (b : ℕ) : sbox b < 256 := by
  by_cases h : b < 256
  · have hall : ∀ b, b < 256 → SM4_SBOX.getD b 0 < 256 := by decide
    exact hall b h
  · unfold sbox
    have hlen : SM4_SBOX.length ≤ b := by
      have : SM4_SBOX.length = 256 := by rfl
      omega
    rw [List.getD_eq_default _ _ hlen]
    norm_num

lemma to_uint32_from_uint32 (x : ℕ) (hx : x < 2 ^ 32) : to_uint32 (from_uint32 x) = x := by
  simp only [to_uint32, from_uint32, List.getD_cons_zero, List.getD_cons_succ]
  omega

lemma from_uint32_to_uint32 (a b c d : ℕ) (ha : a < 256) (hb : b < 256) (hc : c < 256)
    (hd : d < 256) : from_uint32 (to_uint32 [a, b, c, d]) = [a, b, c, d] := by
  simp only [to_uint32, from_uint32, List.getD_cons_zero, List.getD_cons_succ,
    List.cons.injEq, and_true]
  refine ⟨by omega, by omega, by omega, by omega⟩

lemma to_uint32_lt (l : List ℕ) (h : ∀ x ∈ l, x < 256) : to_uint32 l < 2 ^ 32 := by
  unfold to_uint32
  have h0 := getD_byte_lt l 0 h
  have h1 := getD_byte_lt l 1 h
  have h2 := getD_byte_lt l 2 h
  have h3 := getD_byte_lt l 3 h
  omega

lemma to_uint32_bytes_eq_xor (a b c d : ℕ) (ha : a < 256) (hb : b < 256) (hc : c < 256)
    (hd : d < 256) :
    to_uint32 [a, b, c, d] = (a <<< 24) ^^^ ((b <<< 16) ^^^ ((c <<< 8) ^^^ d)) := by
  have hc8 : c <<< 8 < 2 ^ 16 := by rw [Nat.shiftLeft_eq]; omega
  have h8 : (c <<< 8) ^^^ d < 2 ^ 16 := Nat.xor_lt_two_pow hc8 (by omega)
  have hb16 : b <<< 16 < 2 ^ 24 := by rw [Nat.shiftLeft_eq]; omega
  have h16 : (b <<< 16) ^^^ ((c <<< 8) ^^^ d) < 2 ^ 24 :=
    Nat.xor_lt_two_pow hb16 (lt_trans h8 (by norm_num))
  have e8 : 2 ^ 8 * c + d = (c <<< 8) ^^^ d := mul_pow_two_add_eq_xor c d 8 (by omega)
  have e16 : 2 ^ 16 * b + ((c <<< 8) ^^^ d) = (b <<< 16) ^^^ ((c <<< 8) ^^^ d) :=
    mul_pow_two_add_eq_xor b _ 16 h8
  have e24 : 2 ^ 24 * a + ((b <<< 16) ^^^ ((c <<< 8) ^^^ d)) =
      (a <<< 24) ^^^ ((b <<< 16) ^^^ ((c <<< 8) ^^^ d)) :=
    mul_pow_two_add_eq_xor a _ 24 h16
  have lhs : to_uint32 [a, b, c, d] = 2 ^ 24 * a + (2 ^ 16 * b + (2 ^ 8 * c + d)) := by
    simp only [to_uint32, List.getD_cons_zero, List.getD_cons_succ]; ring
  rw [lhs, e8, e16, e24]

lemma shiftLeft_lt_32 (x n : ℕ) (hx : x < 256) (hn : n ≤ 24) : x <<< n < 2 ^ 32 := by
  rw [Nat.shiftLeft_eq]
  have : (2:ℕ) ^ n ≤ 2 ^ 24 := Nat.pow_le_pow_right (by norm_num) hn
  nlinarith

lemma T_ttable_eq_T (v : ℕ) : T_ttable v = T v := by
  have hmap : (from_uint32 v).map sbox =
      [sbox (v >>> 24 % 256), sbox (v >>> 16 % 256), sbox (v >>> 8 % 256), sbox (v % 256)] := by
    simp [from_uint32, Nat.shiftRight_eq_div_pow]
  unfold T tau
  rw [hmap, to_uint32_bytes_eq_xor _ _ _ _ (sbox_lt _) (sbox_lt _) (sbox_lt _) (sbox_lt _)]
  rw [L_xor _ _ (shiftLeft_lt_32 _ _ (sbox_lt _) (by norm_num))
    (Nat.xor_lt_two_pow (shiftLeft_lt_32 _ _ (sbox_lt _) (by norm_num))
      (Nat.xor_lt_two_pow (shiftLeft_lt_32 _ _ (sbox_lt _) (by norm_num))
        (lt_trans (sbox_lt _) (by norm_num))))]
  rw [L_xor _ _ (shiftLeft_lt_32 _ _ (sbox_lt _) (by norm_num))
    (Nat.xor_lt_two_pow (shiftLeft_lt_32 _ _ (sbox_lt _) (by norm_num))
      (lt_trans (sbox_lt _) (by norm_num)))]
  rw [L_xor _ _ (shiftLeft_lt_32 _ _ (sbox_lt _) (by norm_num))
    (lt_trans (sbox_lt _) (by norm_num))]
  unfold T_ttable T_TABLE
  norm_num [Nat.xor_assoc]


lemma sm4_round_ttable_eq (s : SM4State) (k : ℕ) : sm4_round_ttable s k = sm4_round s k := by
  unfold sm4_round_ttable sm4_round
  rw [T_ttable_eq_T]

lemma foldl_round_ttable_eq (ks : List ℕ) (s : SM4State) :
    ks.foldl sm4_round_ttable s = ks.foldl sm4_round s := by
  have h : sm4_round_ttable = sm4_round :=
    funext fun s => funext fun k => sm4_round_ttable_eq s k
  rw [h]

lemma sm4_round_inv (s : SM4State) (k : ℕ) : sm4_round (rev4 (sm4_round s k)) k = rev4 s := by
  have hab : s.x3 ^^^ s.x2 ^^^ s.x1 ^^^ k = s.x1 ^^^ s.x2 ^^^ s.x3 ^^^ k := by
    simp [Nat.xor_assoc, Nat.xor_comm, xor_left_comm]
  simp only [sm4_round, rev4, SM4State.mk.injEq, hab, true_and, and_true]
  exact Nat.xor_cancel_right _ _

lemma foldl_crypt_inv (ks : List ℕ) (s : SM4State) :
    ks.reverse.foldl sm4_round (rev4 (ks.foldl sm4_round s)) = rev4 s := by
  induction ks generalizing s with
  | nil => rfl
  | cons k t ih =>
    rw [List.reverse_cons, List.foldl_append]
    have h1 : (k :: t).foldl sm4_round s = t.foldl sm4_round (sm4_round s k) := rfl
    rw [h1, ih (sm4_round s k)]
    simpa using sm4_round_inv s k

lemma dec_keys_eq_reverse (rk : List ℕ) : dec_keys rk = (enc_keys rk).reverse := by
  unfold dec_keys enc_keys
  rw [← List.map_reverse]
  have h : (List.range 32).reverse = (List.range 32).map (fun i => 31 - i) := by decide
  rw [h, List.map_map]
  rfl

lemma tau_lt (v : ℕ) : tau v < 2 ^ 32 := by
  apply to_uint32_lt
  intro x hx
  rcases List.mem_map.mp hx with ⟨y, _, rfl⟩
  exact sbox_lt y

lemma T_lt (v : ℕ) : T v < 2 ^ 32 := L_lt _ (tau_lt v)

lemma round_bounded (s : SM4State) (k : ℕ) (h : st_bounded s) : st_bounded (sm4_round s k) :=
  ⟨h.2.1, h.2.2.1, h.2.2.2, Nat.xor_lt_two_pow h.1 (T_lt _)⟩

lemma foldl_round_bounded (ks : List ℕ) (s : SM4State) (h : st_bounded s) :
    st_bounded (ks.foldl sm4_round s) := by
  induction ks generalizing s with
  | nil => exact h
  | cons k t ih => exact ih _ (round_bounded s k h)

lemma load_block_bounded (b : List ℕ) (hb : ∀ x ∈ b, x < 256) : st_bounded (load_block b) := by
  refine ⟨to_uint32_lt _ hb, to_uint32_lt _ ?_, to_uint32_lt _ ?_, to_uint32_lt _ ?_⟩ <;>
    exact fun x hx => hb x (List.mem_of_mem_drop hx)

lemma load_store (s : SM4State) (h : st_bounded s) : load_block (store_block s) = rev4 s := by
  obtain ⟨h0, h1, h2, h3⟩ := h
  unfold load_block store_block rev4 from_uint32
  simp only [List.cons_append, List.nil_append, List.drop_succ_cons, List.drop_zero]
  simp only [to_uint32, List.getD_cons_zero, List.getD_cons_succ, SM4State.mk.injEq]
  refine ⟨by omega, by omega, by omega, by omega⟩

lemma store_rev_load (b : List ℕ) (hlen : b.length = 16) (hb : ∀ x ∈ b, x < 256) :
    store_block (rev4 (load_block b)) = b := by
  obtain ⟨b0, b, rfl⟩ : ∃ x t, b = x :: t := by
    cases b with
    | nil => simp at hlen
    | cons x t => exact ⟨x, t, rfl⟩
  obtain ⟨b1, b, rfl⟩ : ∃ x t, b = x :: t := by
    cases b with
    | nil => simp at hlen
    | cons x t => exact ⟨x, t, rfl⟩
  obtain ⟨b2, b, rfl⟩ : ∃ x t, b = x :: t := by
    cases b with
    | nil => simp at hlen
    | cons x t => exact ⟨x, t, rfl⟩
  obtain ⟨b3, b, rfl⟩ : ∃ x t, b = x :: t := by
    cases b with
    | nil => simp at hlen
    | cons x t => exact ⟨x, t, rfl⟩
  obtain ⟨b4, b, rfl⟩ : ∃ x t, b = x :: t := by
    cases b with
    | nil => simp at hlen
    | cons x t => exact ⟨x, t, rfl⟩
  obtain ⟨b5, b, rfl⟩ : ∃ x t, b = x :: t := by
    cases b with
    | nil => simp at hlen
    | cons x t => exact ⟨x, t, rfl⟩
  obtain ⟨b6, b, rfl⟩ : ∃ x t, b = x :: t := by
    cases b with
    | nil => simp at hlen
    | cons x t => exact ⟨x, t, rfl⟩
  obtain ⟨b7, b, rfl⟩ : ∃ x t, b = x :: t := by
    cases b with
    | nil => simp at hlen
    | cons x t => exact ⟨x, t, rfl⟩
  obtain ⟨b8, b, rfl⟩ : ∃ x t, b = x :: t := by
    cases b with
    | nil => simp at hlen
    | cons x t => exact ⟨x, t, rfl⟩
  obtain ⟨b9, b, rfl⟩ : ∃ x t, b = x :: t := by
    cases b with
    | nil => simp at hlen
    | cons x t => exact ⟨x, t, rfl⟩
  obtain ⟨b10, b, rfl⟩ : ∃ x t, b = x :: t := by
    cases b with
    | nil => simp at hlen
    | cons x t => exact ⟨x, t, rfl⟩
  obtain ⟨b11, b, rfl⟩ : ∃ x t, b = x :: t := by
    cases b with
    | nil => simp at hlen
    | cons x t => exact ⟨x, t, rfl⟩
  obtain ⟨b12, b, rfl⟩ : ∃ x t, b = x :: t := by
    cases b with
    | nil => simp at hlen
    | cons x t => exact ⟨x, t, rfl⟩
  obtain ⟨b13, b, rfl⟩ : ∃ x t, b = x :: t := by
    cases b with
    | nil => simp at hlen
    | cons x t => exact ⟨x, t, rfl⟩
  obtain ⟨b14, b, rfl⟩ : ∃ x t, b = x :: t := by
    cases b with
    | nil => simp at hlen
    | cons x t => exact ⟨x, t, rfl⟩
  obtain ⟨b15, b, rfl⟩ : ∃ x t, b = x :: t := by
    cases b with
    | nil => simp at hlen
    | cons x t => exact ⟨x, t, rfl⟩
  have hl0 : b.length = 0 := by
    simp only [List.length_cons] at hlen
    omega
  obtain rfl : b = [] := List.length_eq_zero.mp hl0
  have h0 : b0 < 256 := hb _ (by simp)
  have h1 : b1 < 256 := hb _ (by simp)
  have h2 : b2 < 256 := hb _ (by simp)
  have h3 : b3 < 256 := hb _ (by simp)
  have h4 : b4 < 256 := hb _ (by simp)
  have h5 : b5 < 256 := hb _ (by simp)
  have h6 : b6 < 256 := hb _ (by simp)
  have h7 : b7 < 256 := hb _ (by simp)
  have h8 : b8 < 256 := hb _ (by simp)
  have h9 : b9 < 256 := hb _ (by simp)
  have h10 : b10 < 256 := hb _ (by simp)
  have h11 : b11 < 256 := hb _ (by simp)
  have h12 : b12 < 256 := hb _ (by simp)
  have h13 : b13 < 256 := hb _ (by simp)
  have h14 : b14 < 256 := hb _ (by simp)
  have h15 : b15 < 256 := hb _ (by simp)
  simp only [store_block, rev4, load_block, to_uint32, from_uint32, List.getD_cons_zero,
    List.getD_cons_succ, List.drop_succ_cons, List.drop_zero, List.cons_append,
    List.nil_append, List.cons.injEq, and_true]
  omega

lemma set_key_fold (key : List ℕ) (n : ℕ) :
    (List.range n).foldl (fun s i => sm4_key_step (CK.getD i 0) s)
      (⟨key_window key 0, key_window key 1, key_window key 2, key_window key 3⟩, ([] : List ℕ)) =
      (⟨key_window key n, key_window key (n + 1), key_window key (n + 2),
        key_window key (n + 3)⟩,
       (List.range n).map (fun i => key_window key (i + 4))) := by
  induction n with
  | zero => rfl
  | succ n ih =>
    rw [List.range_succ, List.foldl_append, ih, List.map_append]
    simp only [List.foldl_cons, List.foldl_nil, List.map_cons, List.map_nil]
    unfold sm4_key_step
    simp [key_window]


/-- Claim C2: for every round-key set (all 32 32-bit words, not only
scheduled ones) and every 16-byte block, the lookup-table backend produces
exactly the same output as the basic backend, for encryption and for
decryption. -/
theorem sm4_ttable_matches_basic (input rk : List ℕ) :
    sm4_encrypt_ttable input rk = sm4_encrypt_basic input rk ∧
    sm4_decrypt_ttable input rk = sm4_decrypt_basic input rk := by
  unfold sm4_encrypt_ttable sm4_encrypt_basic sm4_decrypt_ttable sm4_decrypt_basic
  rw [foldl_round_ttable_eq, foldl_round_ttable_eq]
  exact ⟨rfl, rfl⟩

/-- Claim C3: with key 0123456789abcdeffedcba9876543210 and the plaintext
equal to the key, sm4_set_key followed by sm4_encrypt_basic yields
681edf34d206965e86b3e94f536e4246, and sm4_decrypt_basic maps that
ciphertext back to the plaintext. -/
theorem sm4_known_answer_vector :
    sm4_encrypt_basic
        [0x01,0x23,0x45,0x67,0x89,0xab,0xcd,0xef,0xfe,0xdc,0xba,0x98,0x76,0x54,0x32,0x10]
        (sm4_set_key
          [0x01,0x23,0x45,0x67,0x89,0xab,0xcd,0xef,0xfe,0xdc,0xba,0x98,0x76,0x54,0x32,0x10]) =
      [0x68,0x1e,0xdf,0x34,0xd2,0x06,0x96,0x5e,0x86,0xb3,0xe9,0x4f,0x53,0x6e,0x42,0x46] ∧
    sm4_decrypt_basic
        [0x68,0x1e,0xdf,0x34,0xd2,0x06,0x96,0x5e,0x86,0xb3,0xe9,0x4f,0x53,0x6e,0x42,0x46]
        (sm4_set_key
          [0x01,0x23,0x45,0x67,0x89,0xab,0xcd,0xef,0xfe,0xdc,0xba,0x98,0x76,0x54,0x32,0x10]) =
      [0x01,0x23,0x45,0x67,0x89,0xab,0xcd,0xef,0xfe,0xdc,0xba,0x98,0x76,0x54,0x32,0x10] := by
  constructor <;> decide

/-- Claim C4: for every round-key set and every 16-byte block,
sm4_decrypt_basic inverts sm4_encrypt_basic under the same round keys. -/
theorem sm4_encrypt_decrypt_roundtrip (input rk : List ℕ) (hlen : input.length = 16)
    (hbytes : ∀ b ∈ input, b < 256) :
    sm4_decrypt_basic (sm4_encrypt_basic input rk) rk = input := by
  unfold sm4_encrypt_basic sm4_decrypt_basic
  rw [dec_keys_eq_reverse,
    load_store _ (foldl_round_bounded _ _ (load_block_bounded input hbytes)),
    foldl_crypt_inv]
  exact store_rev_load input hlen hbytes

/-- Witness for C4 at the known-answer block and an arbitrary round-key
set. -/
theorem sm4_encrypt_decrypt_roundtrip_witness :
    sm4_decrypt_basic
        (sm4_encrypt_basic
          [0x01,0x23,0x45,0x67,0x89,0xab,0xcd,0xef,0xfe,0xdc,0xba,0x98,0x76,0x54,0x32,0x10]
          (List.replicate 32 7))
        (List.replicate 32 7) =
      [0x01,0x23,0x45,0x67,0x89,0xab,0xcd,0xef,0xfe,0xdc,0xba,0x98,0x76,0x54,0x32,0x10] :=
  sm4_encrypt_decrypt_roundtrip _ _ (by decide) (by decide)

/-- Claim C8: for every key, sm4_set_key produces exactly the 32 round
keys of the specified sliding-window recurrence (key words XOR FK, then
rk[i] = K0 XOR Lprime(tau(K1 XOR K2 XOR K3 XOR CK[i]))). -/
theorem sm4_set_key_follows_spec_recurrence (key : List ℕ) :
    sm4_set_key key = (List.range 32).map (fun i => key_window key (i + 4)) := by
  unfold sm4_set_key
  rw [show (⟨to_uint32 key ^^^ FK.getD 0 0, to_uint32 (key.drop 4) ^^^ FK.getD 1 0,
      to_uint32 (key.drop 8) ^^^ FK.getD 2 0, to_uint32 (key.drop 12) ^^^ FK.getD 3 0⟩ :
      SM4State) =
    ⟨key_window key 0, key_window key 1, key_window key 2, key_window key 3⟩ from rfl]
  rw [set_key_fold key 32]

lemma sm4_encrypt_ttable_len (input rk : List ℕ) : (sm4_encrypt_ttable input rk).length = 16 := by
  simp [sm4_encrypt_ttable, store_block, from_uint32]

lemma zipWith_xor_cancel : ∀ (a b : List ℕ), a.length ≤ b.length →
    List.zipWith (fun x y => x ^^^ y) (List.zipWith (fun x y => x ^^^ y) a b) b = a := by
  intro a
  induction a with
  | nil => intro b h; rfl
  | cons x t ih =>
    intro b h
    cases b with
    | nil => simp at h
    | cons y s =>
      simp only [List.zipWith_cons_cons, List.cons.injEq]
      exact ⟨Nat.xor_cancel_right y x, ih s (by simpa using h)⟩

lemma ctr_crypt_nil (rk c : List ℕ) : ctr_crypt rk c [] = [] := by
  rw [ctr_crypt]
  simp

lemma ctr_crypt_cons (rk c d : List ℕ) (h : d.length ≠ 0) :
    ctr_crypt rk c d =
      List.zipWith (fun a b => a ^^^ b) (d.take 16) (sm4_encrypt_ttable c rk) ++
      ctr_crypt rk (increment_counter c) (d.drop 16) := by
  rw [ctr_crypt]
  simp [h]

lemma ctr_crypt_len (rk : List ℕ) : ∀ (n : ℕ) (c d : List ℕ), d.length ≤ n →
    (ctr_crypt rk c d).length = d.length := by
  intro n
  induction n with
  | zero =>
    intro c d h
    have h0 : d = [] := List.length_eq_zero.mp (by omega)
    subst h0
    rw [ctr_crypt_nil]
  | succ n ih =>
    intro c d h
    by_cases h0 : d.length = 0
    · obtain rfl : d = [] := List.length_eq_zero.mp h0
      rw [ctr_crypt_nil]
    · rw [ctr_crypt_cons rk c d h0]
      rw [List.length_append, List.length_zipWith, sm4_encrypt_ttable_len,
        ih (increment_counter c) (d.drop 16) (by simp; omega)]
      simp
      omega

lemma ctr_crypt_inv_aux (rk : List ℕ) : ∀ (n : ℕ) (c d : List ℕ), d.length ≤ n →
    ctr_crypt rk c (ctr_crypt rk c d) = d := by
  intro n
  induction n with
  | zero =>
    intro c d h
    obtain rfl : d = [] := List.length_eq_zero.mp (by omega)
    rw [ctr_crypt_nil, ctr_crypt_nil]
  | succ n ih =>
    intro c d h
    by_cases h0 : d.length = 0
    · obtain rfl : d = [] := List.length_eq_zero.mp h0
      rw [ctr_crypt_nil, ctr_crypt_nil]
    · rw [ctr_crypt_cons rk c d h0]
      have hks : (sm4_encrypt_ttable c rk).length = 16 := sm4_encrypt_ttable_len c rk
      have hchunk : (List.zipWith (fun a b => a ^^^ b) (d.take 16)
          (sm4_encrypt_ttable c rk)).length = min d.length 16 := by
        rw [List.length_zipWith, hks, List.length_take]
        omega
      by_cases h16 : 16 ≤ d.length
      · have hch16 : (List.zipWith (fun a b => a ^^^ b) (d.take 16)
            (sm4_encrypt_ttable c rk)).length = 16 := by omega
        have hlen2 : (List.zipWith (fun a b => a ^^^ b) (d.take 16)
              (sm4_encrypt_ttable c rk) ++
            ctr_crypt rk (increment_counter c) (d.drop 16)).length ≠ 0 := by
          rw [List.length_append, hch16]
          omega
        rw [ctr_crypt_cons rk c _ hlen2]
        have htake : (List.zipWith (fun a b => a ^^^ b) (d.take 16)
              (sm4_encrypt_ttable c rk) ++
            ctr_crypt rk (increment_counter c) (d.drop 16)).take 16 =
            List.zipWith (fun a b => a ^^^ b) (d.take 16) (sm4_encrypt_ttable c rk) := by
          rw [List.take_append_eq_append_take, hch16]
          simp
        have hdrop : (List.zipWith (fun a b => a ^^^ b) (d.take 16)
              (sm4_encrypt_ttable c rk) ++
            ctr_crypt rk (increment_counter c) (d.drop 16)).drop 16 =
            ctr_crypt rk (increment_counter c) (d.drop 16) := by
          rw [List.drop_append_eq_append_drop, hch16]
          simp
        rw [htake, hdrop]
        rw [zipWith_xor_cancel (d.take 16) (sm4_encrypt_ttable c rk) (by rw [hks]; simp)]
        rw [ih (increment_counter c) (d.drop 16) (by simp; omega)]
        exact List.take_append_drop 16 d
      · have hdrop0 : d.drop 16 = [] := List.drop_eq_nil_of_le (by omega)
        have htake0 : d.take 16 = d := List.take_of_length_le (by omega)
        rw [hdrop0, ctr_crypt_nil, List.append_nil, htake0]
        have hlen2 : (List.zipWith (fun a b => a ^^^ b) d
            (sm4_encrypt_ttable c rk)).length ≠ 0 := by
          rw [List.length_zipWith, hks]
          omega
        rw [ctr_crypt_cons rk c _ hlen2]
        have hlt : (List.zipWith (fun a b => a ^^^ b) d (sm4_encrypt_ttable c rk)).length ≤ 16 := by
          rw [List.length_zipWith, hks]
          omega
        rw [List.take_of_length_le hlt, List.drop_eq_nil_of_le hlt, ctr_crypt_nil,
          List.append_nil]
        exact zipWith_xor_cancel d (sm4_encrypt_ttable c rk) (by rw [hks]; omega)

lemma ctr_crypt_inv (rk c d : List ℕ) : ctr_crypt rk c (ctr_crypt rk c d) = d :=
  ctr_crypt_inv_aux rk d.length c d (le_refl _)

/-- Claim C1: for every key, nonce, associated data and plaintext, and any
fixed global GF-table state shared by both calls, feeding the ciphertext
and tag of sm4_gcm_encrypt to sm4_gcm_decrypt succeeds and returns the
original plaintext. -/
theorem sm4_gcm_roundtrip (st : GfSt) (key iv aad pt : List ℕ) :
    (sm4_gcm_decrypt st key iv aad (sm4_gcm_encrypt st key iv aad pt).1.1
      (sm4_gcm_encrypt st key iv aad pt).1.2).1 = (true, pt) := by
  unfold sm4_gcm_encrypt sm4_gcm_decrypt
  simp only [if_true]
  simp only [Prod.mk.injEq, true_and]
  exact ctr_crypt_inv _ _ pt

/-- Claim C5: whenever the tag sm4_gcm_decrypt recomputes differs from
the supplied tag, the call returns false and the plaintext output buffer
holds exactly ciphertext-length zero bytes. -/
theorem sm4_gcm_decrypt_tag_mismatch (st : GfSt) (key iv aad ct tag : List ℕ)
    (h : gcm_tag st key iv aad ct ≠ tag) :
    (sm4_gcm_decrypt st key iv aad ct tag).1 = (false, List.replicate ct.length 0) := by
  unfold sm4_gcm_decrypt
  rw [if_neg h]

/-- Claim C10: once the flag is set, gf_multiply ignores its second
operand entirely (the result depends only on X and the stored table);
while it is clear, gf_multiply is exactly gf_multiply_basic. -/
theorem gf_multiply_state_cases (st : GfSt) (X Y1 Y2 : List ℕ) :
    (st.initialized = true → gf_multiply st X Y1 = gf_multiply st X Y2) ∧
    (st.initialized = false → gf_multiply st X Y1 = gf_multiply_basic X Y1) := by
  constructor <;> intro h <;> simp [gf_multiply, h]

/-- Claim C6, amended: generate_J0 yields nonce followed by big-endian 1
for 12-byte nonces; for every other length it folds the nonce-bit-length
block a second time on top of the value the spec describes, namely
J0 = GF-multiply(GHASH(empty AAD, nonce) XOR lenblock, H), where the
GHASH value itself already absorbed that same length block once. -/
theorem generate_J0_characterization (st : GfSt) (iv H : List ℕ) :
    generate_J0 st iv H =
      (if iv.length = 12 then iv ++ [0, 0, 0, 1]
       else gf_multiply st
         (List.zipWith (fun a b => a ^^^ b) (generate_J0_spec st iv H)
           (List.replicate 8 0 ++ bytes64 (iv.length * 8))) H) := by
  unfold generate_J0 generate_J0_spec
  by_cases h : iv.length = 12 <;> simp [h]

lemma gf_multiply_after_init_high (st st2 : GfSt) (H X Y : List ℕ) :
    (gf_multiply (init_gf_tables H st) X Y).take 8 =
    (gf_multiply (init_gf_tables H st2) X Y).take 8 := by
  unfold gf_multiply init_gf_tables words_to_block
  simp only [if_true]
  rw [List.take_append_of_le_length (by simp), List.take_append_of_le_length (by simp)]
  have hfold : (List.range 16).foldl
      (fun a i => a ^^^ (if i < 8 then (htable_pair H i (X.getD i 0)).1
        else if i < 16 then (htable_pair H (i - 8) (X.getD i 0)).2 else st.tbl i (X.getD i 0))) 0 =
      (List.range 16).foldl
      (fun a i => a ^^^ (if i < 8 then (htable_pair H i (X.getD i 0)).1
        else if i < 16 then (htable_pair H (i - 8) (X.getD i 0)).2 else st2.tbl i (X.getD i 0))) 0 := by
    apply List.foldl_ext
    intro a i hi
    have : i < 16 := List.mem_range.mp hi
    by_cases h8 : i < 8
    · simp [h8]
    · simp [h8, this]
  rw [hfold]

lemma ghash_fold_nil (st : GfSt) (H X : List ℕ) : ghash_fold st H X [] = X := by
  rw [ghash_fold]
  simp

lemma ghash_fold_ge16 (st : GfSt) (H X data : List ℕ) (h : 16 ≤ data.length) :
    ghash_fold st H X data =
      ghash_fold st H (gf_multiply st (List.zipWith (fun a b => a ^^^ b) X (data.take 16)) H)
        (data.drop 16) := by
  rw [ghash_fold]
  rw [if_neg (by omega), dif_pos h]

lemma ghash_nil_nil (st : GfSt) (H : List ℕ) :
    ghash st H [] [] =
      gf_multiply st
        (List.zipWith (fun a b => a ^^^ b) (List.replicate 16 0)
          (bytes64 0 ++ bytes64 0)) H := by
  unfold ghash
  rw [ghash_fold_nil, ghash_fold_nil]
  simp

lemma ghash_nil_block16 (st : GfSt) (H C : List ℕ) (hc : C.length = 16) :
    ghash st H [] C =
      gf_multiply st
        (List.zipWith (fun a b => a ^^^ b)
          (gf_multiply st
            (List.zipWith (fun a b => a ^^^ b) (List.replicate 16 0) C) H)
          (bytes64 0 ++ bytes64 (C.length * 8))) H := by
  unfold ghash
  rw [ghash_fold_nil, ghash_fold_ge16 st H _ C (by omega)]
  rw [List.take_of_length_le (by omega), List.drop_eq_nil_of_le (by omega), ghash_fold_nil]
  simp

/-- Counterexample to claim C6 as stated: at the 16-byte all-zero nonce
and subkey H = 0^15 01, the J0 the code derives differs from the
universal hash of the padded nonce with a single trailing length block
(the value of generate_J0_spec). -/
theorem generate_J0_not_single_length_fold :
    generate_J0 freshSt (List.replicate 16 0) (List.replicate 15 0 ++ [1]) ≠
    generate_J0_spec freshSt (List.replicate 16 0) (List.replicate 15 0 ++ [1]) := by
  unfold generate_J0 generate_J0_spec
  rw [ghash_nil_block16 freshSt _ _ (by decide)]
  decide

/-- Witness for C10 at concrete states and operands. -/
theorem gf_multiply_state_cases_witness :
    gf_multiply ⟨true, fun _ _ => 0⟩ [1] [2] = gf_multiply ⟨true, fun _ _ => 0⟩ [1] [3] ∧
    gf_multiply ⟨false, fun _ _ => 0⟩ [1] [2] = gf_multiply_basic [1] [2] :=
  ⟨(gf_multiply_state_cases ⟨true, fun _ _ => 0⟩ [1] [2] [3]).1 rfl,
   (gf_multiply_state_cases ⟨false, fun _ _ => 0⟩ [1] [2] [3]).2 rfl⟩

/-- Witness for C5: concrete decrypt call whose recomputed tag differs
from the all-zero supplied tag. -/
theorem sm4_gcm_decrypt_tag_mismatch_witness :
    gcm_tag ⟨true, fun _ _ => 0⟩ (List.replicate 16 0) (List.replicate 12 0) [] [] ≠
      List.replicate 16 0 ∧
    (sm4_gcm_decrypt ⟨true, fun _ _ => 0⟩ (List.replicate 16 0) (List.replicate 12 0) [] []
      (List.replicate 16 0)).1 = (false, List.replicate ([] : List ℕ).length 0) := by
  have hne : gcm_tag ⟨true, fun _ _ => 0⟩ (List.replicate 16 0) (List.replicate 12 0) [] [] ≠
      List.replicate 16 0 := by
    unfold gcm_tag generate_tag gcm_J0 gcm_st1 gcm_H
    rw [ghash_nil_nil]
    decide
  exact ⟨hne, sm4_gcm_decrypt_tag_mismatch _ _ _ _ _ _ hne⟩

/-- The table/basic mismatch of claim C7 holds after init_gf_tables runs
on any prior state: the high eight output bytes read only table rows
0..15, which init_gf_tables always overwrites, so the disagreement is
independent of the modelled contents of the out-of-bounds rows. -/
lemma gf_table_mismatch_any_state (st : GfSt) :
    (gf_multiply (init_gf_tables (List.replicate 15 0 ++ [1]) st)
      (0 :: 1 :: List.replicate 14 0) (List.replicate 15 0 ++ [1])).take 8 ≠
    (gf_multiply_basic (0 :: 1 :: List.replicate 14 0) (List.replicate 15 0 ++ [1])).take 8 := by
  rw [gf_multiply_after_init_high st freshSt]
  decide

/-- Claim C7 fails on the code: after init_gf_tables(H) has run, the
table-driven gf_multiply disagrees with gf_multiply_basic at
H = 0^15 01 and X = 00 01 0^14, already in the high eight output bytes
(which depend only on the rows init_gf_tables wrote). -/
theorem gf_multiply_table_disagrees_with_basic :
    (gf_multiply (init_gf_tables (List.replicate 15 0 ++ [1]) freshSt)
      (0 :: 1 :: List.replicate 14 0) (List.replicate 15 0 ++ [1])).take 8 ≠
    (gf_multiply_basic (0 :: 1 :: List.replicate 14 0) (List.replicate 15 0 ++ [1])).take 8 :=
  gf_table_mismatch_any_state freshSt

/-- Claim C9 fails on the code: an encrypt under the all-zero key K1
builds the table from K1's subkey and sets the flag; a following encrypt
or decrypt under K2 = 01 0^15 leaves that state untouched (so its GHASH
runs on K1's table), although the table K2's own subkey would produce
differs already at row 0, byte index 1. -/
theorem gcm_reuses_stale_gf_table :
    (sm4_gcm_encrypt freshSt (List.replicate 16 0) (List.replicate 12 0) [] []).2 =
      init_gf_tables (gcm_H (List.replicate 16 0)) freshSt ∧
    (sm4_gcm_encrypt (init_gf_tables (gcm_H (List.replicate 16 0)) freshSt)
        (1 :: List.replicate 15 0) (List.replicate 12 0) [] []).2 =
      init_gf_tables (gcm_H (List.replicate 16 0)) freshSt ∧
    (sm4_gcm_decrypt (init_gf_tables (gcm_H (List.replicate 16 0)) freshSt)
        (1 :: List.replicate 15 0) (List.replicate 12 0) [] [] (List.replicate 16 0)).2 =
      init_gf_tables (gcm_H (List.replicate 16 0)) freshSt ∧
    (init_gf_tables (gcm_H (List.replicate 16 0)) freshSt).tbl 0 1 ≠
      (init_gf_tables (gcm_H (1 :: List.replicate 15 0)) freshSt).tbl 0 1 := by
  refine ⟨?_, ?_, ?_, ?_⟩
  · simp [sm4_gcm_encrypt, gcm_st1, freshSt]
  · simp [sm4_gcm_encrypt, gcm_st1, init_gf_tables]
  · unfold sm4_gcm_decrypt
    by_cases h : gcm_tag (init_gf_tables (gcm_H (List.replicate 16 0)) freshSt)
        (1 :: List.replicate 15 0) (List.replicate 12 0) [] [] = List.replicate 16 0
    · rw [if_pos h]
      simp [gcm_st1, init_gf_tables]
    · rw [if_neg h]
      simp [gcm_st1, init_gf_tables]
  · decide

end SM4GCM
